import Mathlib

/-!
# Hunt the Wumpus — verification of the core game logic

Shallow embedding of `src/main.rs` (pistacchio/wumpus-rust).

The Rust program keeps a shared `ThreadRng`; here the random source is
modelled explicitly as a state `Rng` threaded through every operation
that draws from it.  A draw for `slice::choose` is a natural number that
selects an index `d % len` into the (non-empty) slice, so quantifying
over all draw sequences covers every possible sequence of choices; a
draw for `rng.gen::<f32>()` (a uniform float in `[0,1)`) is modelled as
a rational number.  `unwrap`/panic paths are modelled by `Option` /
a dedicated `panic` result constructor.
-/

set_option maxRecDepth 40000

namespace Wumpus

/-- `const MAZE_ROOMS: usize = 20` -/
def MAZE_ROOMS : Nat := 20

/-- `const ROOM_NEIGHBOURS: usize = 3` -/
def ROOM_NEIGHBOURS : Nat := 3

/-- `const BATS: usize = 2` -/
def BATS : Nat := 2

/-- `const PITS: usize = 2` -/
def PITS : Nat := 2

/-- `const ARROWS: usize = 5` -/
def ARROWS : Nat := 5

/-- `const WAKE_WUMPUS_PROB: f32 = 0.75` (0.75 is exactly representable
as an `f32`, so comparing the uniform draw against it as a rational is
faithful; `mkRat` keeps the constant kernel-computable). -/
def WAKE_WUMPUS_PROB : ℚ := mkRat 3 4

/-- `enum Danger { Wumpus, Bat, Pit }` -/
inductive Danger where
  | Wumpus
  | Bat
  | Pit
deriving DecidableEq, BEq, Repr

/-- `struct Player { room: RoomNum, arrows: usize }` -/
structure Player where
  room : Nat
  arrows : Nat
deriving DecidableEq, Repr

/-- `Player::new(room)` sets `arrows: ARROWS`. -/
def Player.new (room : Nat) : Player :=
  { arrows := ARROWS, room := room }

/-- `struct Room { id, neighbours: [Cell<Option<RoomNum>>; 3], dangers: Vec<Danger> }` -/
structure Room where
  id : Nat
  neighbours : List (Option Nat)
  dangers : List Danger
deriving DecidableEq, Repr

instance : Inhabited Room := ⟨⟨0, [], []⟩⟩

/-- `Room::neighbour_ids`: the neighbours that are `Some`, unwrapped. -/
def Room.neighbour_ids (r : Room) : List Nat :=
  r.neighbours.filterMap fun n => n

/-- The explicit random source: a stream of draws for index choices
(`slice::choose`) and a stream of draws for uniform floats
(`rng.gen::<f32>()`). -/
structure Rng where
  nats : List Nat
  floats : List ℚ
deriving DecidableEq, Repr

/-- Pop the next index draw (0 if the stream is exhausted). -/
def Rng.nextNat (r : Rng) : Nat × Rng :=
  (r.nats.headD 0, { r with nats := r.nats.tail })

/-- Pop the next uniform-float draw (0 if the stream is exhausted). -/
def Rng.nextFloat (r : Rng) : ℚ × Rng :=
  (r.floats.headD 0, { r with floats := r.floats.tail })

/-- `slice::choose(&mut rng)`: `None` on an empty slice (no draw
consumed), otherwise a uniformly drawn element — modelled as indexing by
the next draw modulo the length. -/
def listChoose {α : Type} : List α → Rng → Option α × Rng
  | [], r => (none, r)
  | a :: as, r =>
    let (d, r') := r.nextNat
    (some ((a :: as).get ⟨d % (a :: as).length, Nat.mod_lt _ (Nat.succ_pos _)⟩), r')

/-- In-place update of the element at index `i` (Rust `vec[i] = ...` /
field mutation through an index). Out-of-range indices leave the list
unchanged. -/
def listModify {α : Type} (f : α → α) : Nat → List α → List α
  | _, [] => []
  | 0, a :: as => f a :: as
  | n + 1, a :: as => a :: listModify f n as

/-- `struct Maze { rooms: Vec<Room>, rng: ... }` — the rng is threaded
explicitly instead of stored. -/
structure Maze where
  rooms : List Room
deriving DecidableEq, Repr

namespace Maze

/-- `Maze::ADJS`: the constant dodecahedron adjacency table. -/
def ADJS : List (List Nat) :=
  [ [1, 4, 7],
    [0, 2, 9],
    [1, 3, 11],
    [2, 4, 13],
    [0, 3, 5],
    [4, 6, 14],
    [5, 7, 16],
    [0, 6, 8],
    [7, 9, 17],
    [1, 8, 10],
    [9, 11, 18],
    [2, 10, 12],
    [11, 13, 19],
    [3, 12, 14],
    [5, 13, 15],
    [14, 16, 19],
    [6, 15, 17],
    [8, 16, 18],
    [10, 17, 19],
    [12, 15, 18] ]

/-- `maze.rooms[i]` (indices are always in range in the program). -/
def roomAt (m : Maze) (i : Nat) : Room :=
  m.rooms.getD i default

/-- The room vector built by the first half of `Maze::new`: 20 rooms,
room `idx` wired to `ADJS[idx]`. -/
def mkRooms : List Room :=
  (List.range MAZE_ROOMS).map fun idx =>
    { id := idx, neighbours := (ADJS.getD idx []).map some, dangers := [] }

/-- `maze.rooms[i].dangers.push(d)` -/
def addDanger (m : Maze) (i : Nat) (d : Danger) : Maze :=
  { rooms := listModify (fun rm => { rm with dangers := rm.dangers ++ [d] }) i m.rooms }

/-- `Maze::rnd_empty_room`: choose uniformly among the rooms whose
danger list is empty, returning its id.  The Rust code `unwrap`s the
choice; `none` models that panic. -/
def rnd_empty_room (m : Maze) (r : Rng) : Option Nat × Rng :=
  let empty_rooms := m.rooms.filter fun n => n.dangers.isEmpty
  let (c, r') := listChoose empty_rooms r
  (c.map Room.id, r')

/-- `Maze::new`: wire the rooms, then place the Wumpus, `PITS` pits and
`BATS` bats, each into a room chosen by `rnd_empty_room` (the two loops
of two iterations are unrolled).  `none` models a panic inside one of
the `rnd_empty_room().unwrap()` calls. -/
def new (r : Rng) : Option (Maze × Rng) :=
  let m0 : Maze := { rooms := mkRooms }
  match m0.rnd_empty_room r with
  | (none, _) => none
  | (some w, r1) =>
    let m1 := m0.addDanger w .Wumpus
    match m1.rnd_empty_room r1 with
    | (none, _) => none
    | (some p1, r2) =>
      let m2 := m1.addDanger p1 .Pit
      match m2.rnd_empty_room r2 with
      | (none, _) => none
      | (some p2, r3) =>
        let m3 := m2.addDanger p2 .Pit
        match m3.rnd_empty_room r3 with
        | (none, _) => none
        | (some b1, r4) =>
          let m4 := m3.addDanger b1 .Bat
          match m4.rnd_empty_room r4 with
          | (none, _) => none
          | (some b2, r5) => some (m4.addDanger b2 .Bat, r5)

/-- The empty neighbours of `room` computed inside
`Maze::rnd_empty_neighbour`. -/
def empty_neighbours (m : Maze) (room : Nat) : List Nat :=
  (m.roomAt room).neighbour_ids.filter fun n => (m.roomAt n).dangers.isEmpty

/-- `Maze::rnd_empty_neighbour`: among the neighbours of `room`, choose
uniformly one whose danger list is empty; `None` (and no draw) if there
is none. -/
def rnd_empty_neighbour (m : Maze) (room : Nat) (r : Rng) : Option Nat × Rng :=
  let empty := m.empty_neighbours room
  if empty.isEmpty then (none, r)
  else listChoose empty r

/-- `maze.rooms[current_room].neighbour_ids()` -/
def neighbour_ids (m : Maze) (i : Nat) : List Nat :=
  (m.roomAt i).neighbour_ids

/-- Rust `str::parse::<usize>()`: an optional leading `+`, then one or
more ASCII digits, value fitting in 64 bits; everything else is an
error. -/
def parseUsize (s : String) : Option Nat :=
  let ds := match s.data with
    | '+' :: rest => rest
    | cs => cs
  if ds.isEmpty then none
  else if ds.all Char.isDigit then
    let v := ds.foldl (fun acc c => acc * 10 + (c.toNat - 48)) 0
    if v < 2 ^ 64 then some v else none
  else none

/-- `Maze::parse_room`: parse the token and check it names a neighbour
of `current_room`; `none` models `Err(())`. -/
def parse_room (m : Maze) (destination : String) (current_room : Nat) : Option Nat :=
  match parseUsize destination with
  | some room =>
    if (m.neighbour_ids current_room).contains room then some room else none
  | none => none

end Maze

/-- `enum Status { Normal, Quitting, Moving, Shooting }` -/
inductive Status where
  | Normal
  | Quitting
  | Moving
  | Shooting
deriving DecidableEq, Repr

/-- The distinct `exit(..)` calls of the main loop. -/
inductive Outcome where
  | quitGame        -- "Goodbye, braveheart!"            exit(0)
  | eatenByWumpus   -- "The wumpus ate you up!"          exit(0)
  | fellInPit       -- "You fall into a bottomless pit!" exit(0)
  | killedWumpus    -- "YOU KILLED THE WUMPUS!"          exit(0)
  | wokenWumpusAte  -- "You woke up the wumpus..."       exit(1)
  | outOfArrows     -- "You ran out of arrows."          exit(1)
deriving DecidableEq, Repr

/-- The mutable state of the main loop: maze, player, status and the
random source. -/
structure GameState where
  maze : Maze
  player : Player
  status : Status
  rng : Rng
deriving DecidableEq, Repr

/-- The effect of one loop iteration: continue with a new state,
terminate via `exit` (carrying the maze/player/rng at the moment of
exit), or panic on a failed `unwrap`. -/
inductive StepResult where
  | next (s : GameState)
  | terminal (o : Outcome) (m : Maze) (p : Player) (r : Rng)
  | panic
deriving DecidableEq, Repr

/-- `maze.rooms[wumpus_room].dangers.retain(|d| d != &Danger::Wumpus)` -/
def retainNotWumpus (m : Maze) (i : Nat) : Maze :=
  { rooms := listModify
      (fun rm => { rm with dangers := rm.dangers.filter fun d => !(d == Danger.Wumpus) })
      i m.rooms }

/-- Removing the Wumpus marker from `src` and pushing it onto `dst`:
`maze.rooms[wumpus_room].dangers.retain(|d| d != &Danger::Wumpus);
maze.rooms[new_wumpus_room].dangers.push(Danger::Wumpus)`. -/
def moveWumpus (m : Maze) (src dst : Nat) : Maze :=
  (retainNotWumpus m src).addDanger dst .Wumpus

/-- `maze.rooms.iter().find(|r| r.dangers.contains(&Danger::Wumpus))`,
projected to its id. -/
def findWumpusRoom (m : Maze) : Option Nat :=
  (m.rooms.find? fun rm => rm.dangers.contains .Wumpus).map Room.id

/-- The tail of the `Status::Shooting` arm after wake resolution:
`player.arrows -= 1; if player.arrows == 0 { exit(1) } status = Normal`. -/
def afterShot (m : Maze) (p : Player) (r : Rng) : StepResult :=
  let arrows := p.arrows - 1
  if arrows = 0 then .terminal .outOfArrows m { p with arrows := arrows } r
  else .next ⟨m, { p with arrows := arrows }, .Normal, r⟩

/-- The `Status::Moving` arm of the main loop. -/
def stepMoving (m : Maze) (p : Player) (r : Rng) (input : String) : StepResult :=
  match m.parse_room input p.room with
  | some room =>
    if (m.roomAt room).dangers.contains .Wumpus then
      .terminal .eatenByWumpus m p r
    else if (m.roomAt room).dangers.contains .Pit then
      .terminal .fellInPit m p r
    else if (m.roomAt room).dangers.contains .Bat then
      match m.rnd_empty_room r with
      | (some newRoom, r') => .next ⟨m, { p with room := newRoom }, .Normal, r'⟩
      | (none, _) => .panic
    else
      .next ⟨m, { p with room := room }, .Normal, r⟩
  | none => .next ⟨m, p, .Moving, r⟩

/-- The `Status::Shooting` arm of the main loop. -/
def stepShooting (m : Maze) (p : Player) (r : Rng) (input : String) : StepResult :=
  match m.parse_room input p.room with
  | some room =>
    if (m.roomAt room).dangers.contains .Wumpus then
      .terminal .killedWumpus m p r
    else
      let (f, r1) := r.nextFloat
      if f < WAKE_WUMPUS_PROB then
        match findWumpusRoom m with
        | some wumpus_room =>
          match m.rnd_empty_neighbour wumpus_room r1 with
          | (some new_wumpus_room, r2) =>
            if new_wumpus_room = p.room then
              .terminal .wokenWumpusAte m p r2
            else
              afterShot (moveWumpus m wumpus_room new_wumpus_room) p r2
          | (none, r2) => afterShot m p r2
        | none => .panic
      else afterShot m p r1
  | none => .next ⟨m, p, .Shooting, r⟩

/-- One iteration of the main loop on a trimmed, lower-cased input
token. -/
def step (s : GameState) (input : String) : StepResult :=
  match s.status with
  | .Quitting =>
    match input with
    | "y" => .terminal .quitGame s.maze s.player s.rng
    | "n" => .next { s with status := .Normal }
    | _ => .next s
  | .Moving => stepMoving s.maze s.player s.rng input
  | .Shooting => stepShooting s.maze s.player s.rng input
  | .Normal =>
    match input with
    | "h" => .next s
    | "q" => .next { s with status := .Quitting }
    | "m" => .next { s with status := .Moving }
    | "s" => .next { s with status := .Shooting }
    | _ => .next s

/-- The states the main loop can be in: the initial state built by
`main` (maze construction followed by the player placed into a random
empty room with `ARROWS` arrows, status `Normal`), closed under
non-terminal loop iterations. -/
inductive Reachable : GameState → Prop where
  | init (r : Rng) (m : Maze) (r1 r2 : Rng) (proom : Nat) :
      Maze.new r = some (m, r1) →
      m.rnd_empty_room r1 = (some proom, r2) →
      Reachable ⟨m, Player.new proom, .Normal, r2⟩
  | next (s : GameState) (input : String) (s' : GameState) :
      Reachable s → step s input = .next s' → Reachable s'

/-! ## Specification-side predicates -/

/-- The neighbour relation of the adjacency table. -/
def Adj (i j : Nat) : Prop := j ∈ Maze.ADJS.getD i []

/-- One step of breadth-first expansion over the adjacency table:
every listed room together with all its neighbours. -/
def adjStep (s : List Nat) : List Nat :=
  (s.flatMap fun i => i :: Maze.ADJS.getD i []).dedup

/-- All rooms within 6 expansion steps of room `i` (6 exceeds the
diameter of the dodecahedron graph). -/
def reachFrom (i : Nat) : List Nat := adjStep^[6] [i]

/-- The room vector is 20 long, room `k` sits at index `k`, and its
neighbour cells hold exactly `ADJS[k]`.  Established at construction
and never changed afterwards. -/
abbrev RoomsWired (m : Maze) : Prop :=
  m.rooms.length = 20 ∧
  ∀ k, k < 20 →
    (m.roomAt k).id = k ∧ (m.roomAt k).neighbours = (Maze.ADJS.getD k []).map some

/-- Every room holds at most one marker: its danger list is empty or a
single Wumpus, Pit or Bat. -/
abbrev RoomsShape (m : Maze) : Prop :=
  ∀ rm ∈ m.rooms, rm.dangers = [] ∨ rm.dangers = [Danger.Wumpus] ∨
    rm.dangers = [Danger.Pit] ∨ rm.dangers = [Danger.Bat]

/-- How many rooms hold the marker `d`. -/
def dangerCount (m : Maze) (d : Danger) : Nat :=
  m.rooms.countP fun rm => rm.dangers.contains d

/-- How many rooms hold no marker at all. -/
def emptyCount (m : Maze) : Nat :=
  m.rooms.countP fun rm => rm.dangers.isEmpty

/-- The maze invariant: wired per the table, at most one marker per
room, exactly 1 Wumpus room, 2 Pit rooms, 2 Bat rooms, 15 empty
rooms. -/
abbrev MazeInv (m : Maze) : Prop :=
  RoomsWired m ∧ RoomsShape m ∧
  dangerCount m .Wumpus = 1 ∧ dangerCount m .Pit = 2 ∧ dangerCount m .Bat = 2 ∧
  emptyCount m = 15

/-! ## Concrete game states used as witnesses -/

/-- Draws giving a deterministic construction: Wumpus in room 0, Pits
in rooms 1 and 2, Bats in rooms 3 and 4, then the player in room 5. -/
def exRng : Rng := ⟨[0, 0, 0, 0, 0, 0], []⟩

/-- The maze built from `exRng`. -/
def exMaze : Maze :=
  match Maze.new exRng with
  | some (m, _) => m
  | none => ⟨[]⟩

/-- Draws giving: Wumpus in room 1, Pits in rooms 2 and 9, Bats in
rooms 3 and 5, then the player in room 0.  Room 1's only empty
neighbour is room 0 — the player's own room. -/
def cexRng : Rng := ⟨[1, 1, 7, 1, 2, 0, 0], [0]⟩

/-- The maze built from `cexRng`. -/
def cexMaze : Maze :=
  match Maze.new cexRng with
  | some (m, _) => m
  | none => ⟨[]⟩

/-! ## List lemmas for the in-place update and the uniform choice -/

theorem WAKE_WUMPUS_PROB_eq : WAKE_WUMPUS_PROB = 3 / 4 := by
  norm_num [WAKE_WUMPUS_PROB, Rat.mkRat_eq_div]


theorem listModify_length {α : Type} (f : α → α) (i : Nat) (l : List α) :
    (listModify f i l).length = l.length := by
  induction l generalizing i with
  | nil => cases i <;> rfl
  | cons a as ih =>
    cases i with
    | zero => rfl
    | succ n => simp [listModify, ih]

theorem listModify_getD_self {α : Type} (f : α → α) (i : Nat) (l : List α) (d : α)
    (h : i < l.length) :
    (listModify f i l).getD i d = f (l.getD i d) := by
  induction l generalizing i with
  | nil => simp at h
  | cons a as ih =>
    cases i with
    | zero => rfl
    | succ n => simpa [listModify] using ih n (by simpa using h)

theorem listModify_getD_ne {α : Type} (f : α → α) (i j : Nat) (l : List α) (d : α)
    (h : j ≠ i) :
    (listModify f i l).getD j d = l.getD j d := by
  induction l generalizing i j with
  | nil => cases i <;> rfl
  | cons a as ih =>
    cases i with
    | zero =>
      cases j with
      | zero => exact absurd rfl h
      | succ k => rfl
    | succ n =>
      cases j with
      | zero => rfl
      | succ k => simpa [listModify] using ih n k (fun hk => h (by omega))

theorem listModify_countP {α : Type} (p : α → Bool) (f : α → α) (i : Nat) (l : List α)
    (d : α) (h : i < l.length) :
    (listModify f i l).countP p + (if p (l.getD i d) then 1 else 0)
      = l.countP p + (if p (f (l.getD i d)) then 1 else 0) := by
  induction l generalizing i with
  | nil => simp at h
  | cons a as ih =>
    cases i with
    | zero =>
      simp only [listModify, List.countP_cons, List.getD_cons_zero]
      split_ifs <;> omega
    | succ n =>
      have := ih n (by simpa using h)
      simp only [listModify, List.countP_cons, List.getD_cons_succ]
      split_ifs at this ⊢ <;> omega

theorem listModify_mem {α : Type} (f : α → α) (i : Nat) (l : List α) (d : α) {x : α}
    (h : x ∈ listModify f i l) :
    x ∈ l ∨ (i < l.length ∧ x = f (l.getD i d)) := by
  induction l generalizing i with
  | nil => simp [listModify] at h
  | cons a as ih =>
    cases i with
    | zero =>
      rcases List.mem_cons.mp h with rfl | h
      · exact Or.inr ⟨Nat.succ_pos _, rfl⟩
      · exact Or.inl (List.mem_cons_of_mem _ h)
    | succ n =>
      rcases List.mem_cons.mp h with rfl | h
      · exact Or.inl (List.mem_cons_self _ _)
      · rcases ih n h with h | ⟨hn, hx⟩
        · exact Or.inl (List.mem_cons_of_mem _ h)
        · exact Or.inr ⟨by simpa using hn, by simpa using hx⟩

theorem listChoose_mem {α : Type} (xs : List α) (r : Rng) (h : xs ≠ []) :
    ∃ a r', listChoose xs r = (some a, r') ∧ a ∈ xs := by
  cases xs with
  | nil => exact absurd rfl h
  | cons b bs => exact ⟨_, _, rfl, List.get_mem _ _ _⟩

theorem listChoose_eq_some {α : Type} {xs : List α} {r : Rng} {a : α} {r' : Rng}
    (h : listChoose xs r = (some a, r')) : a ∈ xs := by
  cases xs with
  | nil => simp [listChoose] at h
  | cons b bs =>
    have : some ((b :: bs).get ⟨r.nextNat.1 % (b :: bs).length,
        Nat.mod_lt _ (Nat.succ_pos _)⟩) = some a := congrArg Prod.fst h
    exact (Option.some_inj.mp this) ▸ List.get_mem _ _ _

/-! ## Room access and identity -/

theorem roomAt_eq_get (m : Maze) (k : Nat) (h : k < m.rooms.length) :
    m.roomAt k = m.rooms.get ⟨k, h⟩ := by
  simp [Maze.roomAt, List.getD_eq_getElem?_getD, List.getElem?_eq_getElem h,
    List.get_eq_getElem]

theorem id_mem_rooms (m : Maze) (hw : RoomsWired m) {rm : Room} (h : rm ∈ m.rooms) :
    rm.id < 20 ∧ m.roomAt rm.id = rm := by
  obtain ⟨⟨n, hn⟩, hget⟩ := List.mem_iff_get.mp h
  have hlen : n < 20 := by rw [← hw.1]; exact hn
  have hAt : m.roomAt n = rm := by rw [roomAt_eq_get m n hn]; exact hget
  have hid : rm.id = n := by rw [← hAt]; exact (hw.2 n hlen).1
  rw [hid, hAt] at *
  exact ⟨hlen, hAt⟩

/-! ## `rnd_empty_room` -/

theorem rnd_empty_room_spec (m : Maze) (r : Rng) (h : 0 < emptyCount m) :
    ∃ rm r', m.rnd_empty_room r = (some rm.id, r') ∧ rm ∈ m.rooms ∧ rm.dangers = [] := by
  have hfil : m.rooms.filter (fun n => n.dangers.isEmpty) ≠ [] := by
    rw [emptyCount, List.countP_eq_length_filter] at h
    exact List.length_pos.mp h
  obtain ⟨a, r', hch, hmem⟩ := listChoose_mem _ r hfil
  have hmem' := List.mem_filter.mp hmem
  refine ⟨a, r', ?_, hmem'.1, List.isEmpty_iff.mp hmem'.2⟩
  simp only [Maze.rnd_empty_room]
  rw [hch]
  rfl

theorem rnd_empty_room_pos (m : Maze) (r : Rng) (hw : RoomsWired m) (h : 0 < emptyCount m) :
    ∃ i r', m.rnd_empty_room r = (some i, r') ∧ i < 20 ∧ (m.roomAt i).dangers = [] := by
  obtain ⟨rm, r', heq, hmem, hdang⟩ := rnd_empty_room_spec m r h
  obtain ⟨hlt, hAt⟩ := id_mem_rooms m hw hmem
  exact ⟨rm.id, r', heq, hlt, by rw [hAt]; exact hdang⟩

/-! ## `addDanger` -/

theorem addDanger_length (m : Maze) (i : Nat) (d : Danger) :
    (m.addDanger i d).rooms.length = m.rooms.length :=
  listModify_length _ i m.rooms

theorem addDanger_roomAt_self (m : Maze) (i : Nat) (d : Danger) (h : i < m.rooms.length) :
    (m.addDanger i d).roomAt i = { m.roomAt i with dangers := (m.roomAt i).dangers ++ [d] } :=
  listModify_getD_self _ i m.rooms default h

theorem addDanger_roomAt_ne (m : Maze) (i j : Nat) (d : Danger) (h : j ≠ i) :
    (m.addDanger i d).roomAt j = m.roomAt j :=
  listModify_getD_ne _ i j m.rooms default h

theorem addDanger_wired (m : Maze) (i : Nat) (d : Danger) (hw : RoomsWired m) :
    RoomsWired (m.addDanger i d) := by
  refine ⟨by rw [addDanger_length]; exact hw.1, fun k hk => ?_⟩
  by_cases hik : k = i
  · subst hik
    have hi : k < m.rooms.length := by rw [hw.1]; exact hk
    rw [addDanger_roomAt_self m k d hi]
    exact hw.2 k hk
  · rw [addDanger_roomAt_ne m i k d hik]
    exact hw.2 k hk

theorem addDanger_shape (m : Maze) (i : Nat) (d : Danger) (hs : RoomsShape m)
    (he : (m.roomAt i).dangers = []) :
    RoomsShape (m.addDanger i d) := by
  intro rm hrm
  rcases listModify_mem _ i m.rooms default hrm with h | ⟨hi, rfl⟩
  · exact hs rm h
  · right
    simp only [Maze.roomAt] at he
    simp only [he, List.nil_append]
    cases d <;> simp

theorem addDanger_dangerCount (m : Maze) (i : Nat) (d : Danger) (hi : i < m.rooms.length)
    (he : (m.roomAt i).dangers = []) (d' : Danger) :
    dangerCount (m.addDanger i d) d' = dangerCount m d' + (if d' = d then 1 else 0) := by
  have h := listModify_countP (fun rm => rm.dangers.contains d')
      (fun rm => { rm with dangers := rm.dangers ++ [d] }) i m.rooms default hi
  simp only [Maze.roomAt] at he
  simp only [he, List.nil_append] at h
  have h1 : (([] : List Danger).contains d') = false := rfl
  have h2 : (([d] : List Danger).contains d') = (if d' = d then true else false) := by
    cases d <;> cases d' <;> rfl
  rw [h1, h2] at h
  rw [dangerCount, dangerCount]
  by_cases hdd : d' = d <;> simp only [hdd, if_true, if_false, Maze.addDanger] at h ⊢ <;>
    simp_all [Maze.addDanger]

theorem addDanger_emptyCount (m : Maze) (i : Nat) (d : Danger) (hi : i < m.rooms.length)
    (he : (m.roomAt i).dangers = []) :
    emptyCount (m.addDanger i d) + 1 = emptyCount m := by
  have h := listModify_countP (fun rm => rm.dangers.isEmpty)
      (fun rm => { rm with dangers := rm.dangers ++ [d] }) i m.rooms default hi
  simp only [Maze.roomAt] at he
  simp only [he, List.nil_append] at h
  simpa [emptyCount, Maze.addDanger] using h

/-! ## Construction -/

theorem place_step (m : Maze) (r : Rng) (d : Danger)
    (hw : RoomsWired m) (hs : RoomsShape m) (he : 0 < emptyCount m) :
    ∃ i r', m.rnd_empty_room r = (some i, r') ∧
      RoomsWired (m.addDanger i d) ∧ RoomsShape (m.addDanger i d) ∧
      emptyCount (m.addDanger i d) + 1 = emptyCount m ∧
      ∀ d', dangerCount (m.addDanger i d) d' = dangerCount m d' + (if d' = d then 1 else 0) := by
  obtain ⟨i, r', heq, hlt, hdang⟩ := rnd_empty_room_pos m r hw he
  have hi : i < m.rooms.length := by rw [hw.1]; exact hlt
  exact ⟨i, r', heq, addDanger_wired m i d hw, addDanger_shape m i d hs hdang,
    addDanger_emptyCount m i d hi hdang, fun d' => addDanger_dangerCount m i d hi hdang d'⟩

theorem mkRooms_wired : RoomsWired ⟨Maze.mkRooms⟩ := by decide

theorem mkRooms_shape : RoomsShape ⟨Maze.mkRooms⟩ := by decide

theorem maze_new_spec (r : Rng) :
    ∃ m r', Maze.new r = some (m, r') ∧ MazeInv m := by
  have h0e : emptyCount ⟨Maze.mkRooms⟩ = 20 := by decide
  have h0W : dangerCount ⟨Maze.mkRooms⟩ .Wumpus = 0 := by decide
  have h0P : dangerCount ⟨Maze.mkRooms⟩ .Pit = 0 := by decide
  have h0B : dangerCount ⟨Maze.mkRooms⟩ .Bat = 0 := by decide
  obtain ⟨i1, r1, e1, w1, s1, ec1, dc1⟩ :=
    place_step ⟨Maze.mkRooms⟩ r .Wumpus mkRooms_wired mkRooms_shape (by omega)
  obtain ⟨i2, r2, e2, w2, s2, ec2, dc2⟩ := place_step _ r1 .Pit w1 s1 (by omega)
  obtain ⟨i3, r3, e3, w3, s3, ec3, dc3⟩ := place_step _ r2 .Pit w2 s2 (by omega)
  obtain ⟨i4, r4, e4, w4, s4, ec4, dc4⟩ := place_step _ r3 .Bat w3 s3 (by omega)
  obtain ⟨i5, r5, e5, w5, s5, ec5, dc5⟩ := place_step _ r4 .Bat w4 s4 (by omega)
  refine ⟨_, r5, ?_, w5, s5, ?_, ?_, ?_, ?_⟩
  · simp only [Maze.new, e1, e2, e3, e4, e5]
  · have := dc5 .Wumpus
    have := dc4 .Wumpus
    have := dc3 .Wumpus
    have := dc2 .Wumpus
    have := dc1 .Wumpus
    simp_all
  · have := dc5 .Pit
    have := dc4 .Pit
    have := dc3 .Pit
    have := dc2 .Pit
    have := dc1 .Pit
    simp_all
  · have := dc5 .Bat
    have := dc4 .Bat
    have := dc3 .Bat
    have := dc2 .Bat
    have := dc1 .Bat
    simp_all
  · omega

theorem maze_new_inv {r : Rng} {m : Maze} {r' : Rng}
    (h : Maze.new r = some (m, r')) : MazeInv m := by
  obtain ⟨m2, r2, h2, hinv⟩ := maze_new_spec r
  rw [h] at h2
  obtain ⟨rfl, rfl⟩ := Prod.mk.injEq .. ▸ Option.some_inj.mp h2.symm
  exact hinv

/-! ## Adjacency-table facts and `parse_room` -/

theorem filterMap_map_some (l : List Nat) :
    (l.map some).filterMap (fun n => n) = l := by
  induction l with
  | nil => rfl
  | cons a as ih => simp [ih]

theorem neighbour_ids_wired (m : Maze) (hw : RoomsWired m) (k : Nat) (hk : k < 20) :
    m.neighbour_ids k = Maze.ADJS.getD k [] := by
  rw [Maze.neighbour_ids, Room.neighbour_ids, (hw.2 k hk).2, filterMap_map_some]

theorem adjs_self_not_mem : ∀ i, i < 20 → i ∉ Maze.ADJS.getD i [] := by decide

theorem adjs_mem_lt : ∀ i, i < 20 → ∀ j ∈ Maze.ADJS.getD i [], j < 20 := by decide

theorem parse_room_iff (m : Maze) (tok : String) (cur : Nat) (n : Nat) :
    m.parse_room tok cur = some n ↔
      Maze.parseUsize tok = some n ∧ n ∈ m.neighbour_ids cur := by
  rw [Maze.parse_room]
  cases h : Maze.parseUsize tok with
  | none => simp
  | some v =>
    simp only [h]
    split
    next hc =>
      have hv : v ∈ m.neighbour_ids cur := List.elem_iff.mp hc
      constructor
      · intro hvn
        obtain rfl := Option.some_inj.mp hvn
        exact ⟨rfl, hv⟩
      · intro ⟨hvn, _⟩
        exact hvn
    next hc =>
      constructor
      · intro hvn
        cases hvn
      · intro ⟨hvn, hm⟩
        obtain rfl := Option.some_inj.mp hvn
        exact absurd (List.elem_iff.mpr hm) hc

/-! ## `findWumpusRoom` and `rnd_empty_neighbour` -/

theorem findWumpusRoom_spec (m : Maze) (hw : RoomsWired m) (hs : RoomsShape m)
    (hc : dangerCount m .Wumpus = 1) :
    ∃ w, findWumpusRoom m = some w ∧ w < 20 ∧ (m.roomAt w).dangers = [Danger.Wumpus] := by
  have hpos : 0 < m.rooms.countP (fun rm => rm.dangers.contains .Wumpus) := by
    have : m.rooms.countP (fun rm => rm.dangers.contains Danger.Wumpus) = 1 := hc
    omega
  obtain ⟨rm, hmem, hp⟩ := List.countP_pos.mp hpos
  have hfind : (m.rooms.find? (fun rm => rm.dangers.contains .Wumpus)).isSome := by
    rw [List.find?_isSome]
    exact ⟨rm, hmem, hp⟩
  obtain ⟨wr, hwr⟩ := Option.isSome_iff_exists.mp hfind
  have hwrp : wr.dangers.contains Danger.Wumpus = true := by
    have h' := List.find?_some hwr
    simpa using h'
  have hwrm := List.mem_of_find?_eq_some hwr
  obtain ⟨hlt, hAt⟩ := id_mem_rooms m hw hwrm
  refine ⟨wr.id, ?_, hlt, ?_⟩
  · rw [findWumpusRoom, hwr]
    rfl
  · rw [hAt]
    rcases hs wr hwrm with h0 | h1 | h2 | h3
    · rw [h0] at hwrp
      exact absurd hwrp (by decide)
    · exact h1
    · rw [h2] at hwrp
      exact absurd hwrp (by decide)
    · rw [h3] at hwrp
      exact absurd hwrp (by decide)

theorem findWumpusRoom_eq (m : Maze) (hw : RoomsWired m) (hs : RoomsShape m)
    (hc : dangerCount m .Wumpus = 1) {w : Nat}
    (h : findWumpusRoom m = some w) :
    w < 20 ∧ (m.roomAt w).dangers = [Danger.Wumpus] := by
  obtain ⟨w', h', hlt, hAt⟩ := findWumpusRoom_spec m hw hs hc
  rw [h] at h'
  obtain rfl := Option.some_inj.mp h'
  exact ⟨hlt, hAt⟩

theorem rnd_empty_neighbour_none (m : Maze) (room : Nat) (r : Rng)
    (he : m.empty_neighbours room = []) :
    m.rnd_empty_neighbour room r = (none, r) := by
  rw [Maze.rnd_empty_neighbour, he]
  rfl

theorem rnd_empty_neighbour_some (m : Maze) (room : Nat) (r : Rng)
    (hne : m.empty_neighbours room ≠ []) :
    ∃ c r2, m.rnd_empty_neighbour room r = (some c, r2) ∧ c ∈ m.empty_neighbours room := by
  obtain ⟨c, r2, hch, hmem⟩ := listChoose_mem _ r hne
  refine ⟨c, r2, ?_, hmem⟩
  rw [Maze.rnd_empty_neighbour, if_neg (by simpa [List.isEmpty_iff] using hne)]
  exact hch

theorem rnd_empty_neighbour_mem {m : Maze} {room : Nat} {r : Rng} {c : Nat} {r2 : Rng}
    (h : m.rnd_empty_neighbour room r = (some c, r2)) :
    c ∈ m.empty_neighbours room := by
  rw [Maze.rnd_empty_neighbour] at h
  split at h
  · exact absurd (congrArg Prod.fst h) (by simp)
  · exact listChoose_eq_some h

theorem mem_empty_neighbours {m : Maze} {room c : Nat}
    (h : c ∈ m.empty_neighbours room) :
    c ∈ (m.roomAt room).neighbour_ids ∧ (m.roomAt c).dangers = [] := by
  have h' := List.mem_filter.mp h
  exact ⟨h'.1, List.isEmpty_iff.mp h'.2⟩

/-! ## `retainNotWumpus` and `moveWumpus` -/

theorem retain_length (m : Maze) (i : Nat) :
    (retainNotWumpus m i).rooms.length = m.rooms.length :=
  listModify_length _ i m.rooms

theorem retain_roomAt_self (m : Maze) (i : Nat) (h : i < m.rooms.length) :
    (retainNotWumpus m i).roomAt i =
      { m.roomAt i with dangers := (m.roomAt i).dangers.filter fun d => !(d == Danger.Wumpus) } :=
  listModify_getD_self _ i m.rooms default h

theorem retain_roomAt_ne (m : Maze) (i j : Nat) (h : j ≠ i) :
    (retainNotWumpus m i).roomAt j = m.roomAt j :=
  listModify_getD_ne _ i j m.rooms default h

theorem retain_wired (m : Maze) (i : Nat) (hw : RoomsWired m) :
    RoomsWired (retainNotWumpus m i) := by
  refine ⟨by rw [retain_length]; exact hw.1, fun k hk => ?_⟩
  by_cases hik : k = i
  · subst hik
    have hi : k < m.rooms.length := by rw [hw.1]; exact hk
    rw [retain_roomAt_self m k hi]
    exact hw.2 k hk
  · rw [retain_roomAt_ne m i k hik]
    exact hw.2 k hk

theorem retain_shape (m : Maze) (i : Nat) (hs : RoomsShape m) :
    RoomsShape (retainNotWumpus m i) := by
  intro rm hrm
  rcases listModify_mem _ i m.rooms default hrm with h | ⟨hi, rfl⟩
  · exact hs rm h
  · have hmem : m.rooms.getD i default ∈ m.rooms := by
      rw [show m.rooms.getD i default = m.roomAt i from rfl, roomAt_eq_get m i hi]
      exact List.get_mem _ _ _
    rcases hs _ hmem with h | h | h | h <;> simp only [h] <;> decide

theorem retain_counts (m : Maze) (w : Nat) (hwlen : w < m.rooms.length)
    (hwd : (m.roomAt w).dangers = [Danger.Wumpus]) :
    dangerCount (retainNotWumpus m w) .Wumpus + 1 = dangerCount m .Wumpus ∧
    dangerCount (retainNotWumpus m w) .Pit = dangerCount m .Pit ∧
    dangerCount (retainNotWumpus m w) .Bat = dangerCount m .Bat ∧
    emptyCount (retainNotWumpus m w) = emptyCount m + 1 := by
  simp only [Maze.roomAt] at hwd
  have eW1 : (([Danger.Wumpus] : List Danger).contains Danger.Wumpus) = true := rfl
  have eW2 : ((([Danger.Wumpus] : List Danger).filter
      fun d => !(d == Danger.Wumpus)).contains Danger.Wumpus) = false := rfl
  have eP1 : (([Danger.Wumpus] : List Danger).contains Danger.Pit) = false := rfl
  have eP2 : ((([Danger.Wumpus] : List Danger).filter
      fun d => !(d == Danger.Wumpus)).contains Danger.Pit) = false := rfl
  have eB1 : (([Danger.Wumpus] : List Danger).contains Danger.Bat) = false := rfl
  have eB2 : ((([Danger.Wumpus] : List Danger).filter
      fun d => !(d == Danger.Wumpus)).contains Danger.Bat) = false := rfl
  have eE1 : (([Danger.Wumpus] : List Danger).isEmpty) = false := rfl
  have eE2 : ((([Danger.Wumpus] : List Danger).filter
      fun d => !(d == Danger.Wumpus)).isEmpty) = true := rfl
  refine ⟨?_, ?_, ?_, ?_⟩
  · have h := listModify_countP (fun rm => rm.dangers.contains Danger.Wumpus)
        (fun rm => { rm with dangers := rm.dangers.filter fun d => !(d == Danger.Wumpus) })
        w m.rooms default hwlen
    simp only [hwd] at h
    rw [eW1, eW2] at h
    simp at h
    exact h
  · have h := listModify_countP (fun rm => rm.dangers.contains Danger.Pit)
        (fun rm => { rm with dangers := rm.dangers.filter fun d => !(d == Danger.Wumpus) })
        w m.rooms default hwlen
    simp only [hwd] at h
    rw [eP1, eP2] at h
    simp at h
    exact h
  · have h := listModify_countP (fun rm => rm.dangers.contains Danger.Bat)
        (fun rm => { rm with dangers := rm.dangers.filter fun d => !(d == Danger.Wumpus) })
        w m.rooms default hwlen
    simp only [hwd] at h
    rw [eB1, eB2] at h
    simp at h
    exact h
  · have h := listModify_countP (fun rm => rm.dangers.isEmpty)
        (fun rm => { rm with dangers := rm.dangers.filter fun d => !(d == Danger.Wumpus) })
        w m.rooms default hwlen
    simp only [hwd] at h
    rw [eE1, eE2] at h
    simp at h
    exact h

theorem moveWumpus_inv (m : Maze) (w c : Nat) (hinv : MazeInv m)
    (hw20 : w < 20) (hwd : (m.roomAt w).dangers = [Danger.Wumpus])
    (hc20 : c < 20) (hcd : (m.roomAt c).dangers = []) :
    MazeInv (moveWumpus m w c) := by
  obtain ⟨hwired, hshape, hW, hP, hB, hE⟩ := hinv
  have hwlen : w < m.rooms.length := by rw [hwired.1]; exact hw20
  have hne : c ≠ w := by
    intro h
    rw [h, hwd] at hcd
    cases hcd
  have hclen1 : c < (retainNotWumpus m w).rooms.length := by
    rw [retain_length, hwired.1]
    exact hc20
  have hcd1 : ((retainNotWumpus m w).roomAt c).dangers = [] := by
    rw [retain_roomAt_ne m w c hne]
    exact hcd
  obtain ⟨rW, rP, rB, rE⟩ := retain_counts m w hwlen hwd
  have w1 := retain_wired m w hwired
  have s1 := retain_shape m w hshape
  refine ⟨addDanger_wired _ c .Wumpus w1, addDanger_shape _ c .Wumpus s1 hcd1, ?_, ?_, ?_, ?_⟩
  · rw [show moveWumpus m w c = (retainNotWumpus m w).addDanger c .Wumpus from rfl,
      addDanger_dangerCount _ c .Wumpus hclen1 hcd1]
    simp
    omega
  · rw [show moveWumpus m w c = (retainNotWumpus m w).addDanger c .Wumpus from rfl,
      addDanger_dangerCount _ c .Wumpus hclen1 hcd1]
    simp
    omega
  · rw [show moveWumpus m w c = (retainNotWumpus m w).addDanger c .Wumpus from rfl,
      addDanger_dangerCount _ c .Wumpus hclen1 hcd1]
    simp
    omega
  · have h := addDanger_emptyCount (retainNotWumpus m w) c .Wumpus hclen1 hcd1
    rw [show moveWumpus m w c = (retainNotWumpus m w).addDanger c .Wumpus from rfl]
    omega

theorem room_neighbour_ids_wired (m : Maze) (hw : RoomsWired m) (k : Nat) (hk : k < 20) :
    (m.roomAt k).neighbour_ids = Maze.ADJS.getD k [] :=
  neighbour_ids_wired m hw k hk

/-! ## The main-loop step preserves the maze invariant -/

theorem afterShot_next_maze {m : Maze} {p : Player} {r : Rng} {s' : GameState}
    (h : afterShot m p r = .next s') : s'.maze = m := by
  rw [afterShot] at h
  split at h
  · cases h
  · injection h with h
    subst h
    rfl

theorem afterShot_eq (m : Maze) (p : Player) (r : Rng) :
    (p.arrows - 1 = 0 ∧
      afterShot m p r = .terminal .outOfArrows m { p with arrows := p.arrows - 1 } r) ∨
    (p.arrows - 1 ≠ 0 ∧
      afterShot m p r = .next ⟨m, { p with arrows := p.arrows - 1 }, .Normal, r⟩) := by
  by_cases h : p.arrows - 1 = 0
  · left
    refine ⟨h, ?_⟩
    rw [afterShot]
    simp [h]
  · right
    refine ⟨h, ?_⟩
    rw [afterShot]
    simp [h]

theorem afterShot_cases (m : Maze) (p : Player) (r : Rng) (ha : 1 ≤ p.arrows) :
    (p.arrows = 1 ∧ afterShot m p r = .terminal .outOfArrows m { p with arrows := 0 } r) ∨
    (2 ≤ p.arrows ∧
      afterShot m p r = .next ⟨m, { p with arrows := p.arrows - 1 }, .Normal, r⟩) := by
  rcases afterShot_eq m p r with ⟨hz, he⟩ | ⟨hz, he⟩
  · left
    refine ⟨by omega, ?_⟩
    rw [he]
    simp [hz]
  · right
    exact ⟨by omega, he⟩

theorem stepMoving_next_maze {m : Maze} {p : Player} {r : Rng} {input : String}
    {s' : GameState} (h : stepMoving m p r input = .next s') : s'.maze = m := by
  rw [stepMoving] at h
  repeat' split at h
  all_goals first
    | (injection h with h; subst h; rfl)
    | cases h

theorem stepShooting_next_inv {m : Maze} {p : Player} {r : Rng} {input : String}
    {s' : GameState} (hinv : MazeInv m) (h : stepShooting m p r input = .next s') :
    MazeInv s'.maze := by
  rw [stepShooting] at h
  split at h
  next room heq =>
    split at h
    · cases h
    next hW =>
      split at h
      next f r1 heqf =>
        split at h
        next hwake =>
          split at h
          next wumpus_room heqw =>
            split at h
            next nwr r2 heqn =>
              split at h
              · cases h
              next hne =>
                rw [afterShot_next_maze h]
                obtain ⟨hw20, hwd⟩ :=
                  findWumpusRoom_eq m hinv.1 hinv.2.1 hinv.2.2.1 heqw
                obtain ⟨hcn, hcd⟩ := mem_empty_neighbours (rnd_empty_neighbour_mem heqn)
                have hc20 : nwr < 20 := by
                  rw [room_neighbour_ids_wired m hinv.1 wumpus_room hw20] at hcn
                  exact adjs_mem_lt wumpus_room hw20 nwr hcn
                exact moveWumpus_inv m wumpus_room nwr hinv hw20 hwd hc20 hcd
            next r2 heqn =>
              rw [afterShot_next_maze h]
              exact hinv
          next heqw => cases h
        next hwake =>
          rw [afterShot_next_maze h]
          exact hinv
  next heq =>
    injection h with h
    subst h
    exact hinv

theorem step_preserves_inv {s : GameState} {input : String} {s' : GameState}
    (hinv : MazeInv s.maze) (h : step s input = .next s') : MazeInv s'.maze := by
  obtain ⟨m, p, st, r⟩ := s
  cases st
  case Normal =>
    simp only [step] at h
    split at h <;> (injection h with h; subst h; exact hinv)
  case Quitting =>
    simp only [step] at h
    split at h
    · cases h
    · injection h with h
      subst h
      exact hinv
    · injection h with h
      subst h
      exact hinv
  case Moving =>
    simp only [step] at h
    rw [stepMoving_next_maze h]
    exact hinv
  case Shooting =>
    simp only [step] at h
    exact stepShooting_next_inv hinv h

theorem reachable_maze_inv {s : GameState} (h : Reachable s) : MazeInv s.maze := by
  induction h with
  | init r m r1 r2 proom hnew hplace => exact maze_new_inv hnew
  | next s input s' hs hstep ih => exact step_preserves_inv ih hstep

/-! ## Soundness of the breadth-first expansion -/

theorem adjStep_sound (n : Nat) (s : List Nat) (j : Nat)
    (h : j ∈ adjStep^[n] s) : ∃ i ∈ s, Relation.ReflTransGen Adj i j := by
  induction n generalizing s with
  | zero => exact ⟨j, h, Relation.ReflTransGen.refl⟩
  | succ n ih =>
    rw [Function.iterate_succ_apply] at h
    obtain ⟨i', hi', hrt⟩ := ih (adjStep s) h
    rw [adjStep, List.mem_dedup, List.mem_flatMap] at hi'
    obtain ⟨i, his, hii'⟩ := hi'
    rcases List.mem_cons.mp hii' with rfl | hadj
    · exact ⟨i', his, hrt⟩
    · exact ⟨i, his, Relation.ReflTransGen.head hadj hrt⟩

/-! ## The claims -/

/-- **C1**: for every sequence of random draws the construction
consumes, `Maze::new` succeeds and the resulting maze holds exactly 1
Wumpus room, 2 Pit rooms and 2 Bat rooms; every room carries at most
one marker, so the 5 occupied rooms are mutually distinct (and 15 rooms
stay empty). -/
theorem construction_places_five_distinct (r : Rng) :
    ∃ m r', Maze.new r = some (m, r') ∧
      dangerCount m .Wumpus = 1 ∧ dangerCount m .Pit = 2 ∧ dangerCount m .Bat = 2 ∧
      emptyCount m = 15 ∧ ∀ rm ∈ m.rooms, rm.dangers.length ≤ 1 := by
  obtain ⟨m, r', h, hw, hs, h1, h2, h3, h4⟩ := maze_new_spec r
  refine ⟨m, r', h, h1, h2, h3, h4, fun rm hrm => ?_⟩
  rcases hs rm hrm with h | h | h | h <;> simp [h]

/-- **C2**: the constant adjacency table `ADJS` is a well-formed cave
graph: 20 rows, each with exactly 3 distinct in-range neighbours, no
room its own neighbour, the relation symmetric, and the graph connected
(every room reaches every other through the neighbour relation); the
rooms built by `Maze::new` are wired exactly to this table. -/
theorem adjacency_table_wellformed :
    Maze.ADJS.length = 20 ∧
    (∀ i, i < 20 → (Maze.ADJS.getD i []).length = 3 ∧ (Maze.ADJS.getD i []).Nodup ∧
      i ∉ Maze.ADJS.getD i [] ∧
      ∀ j ∈ Maze.ADJS.getD i [], j < 20 ∧ i ∈ Maze.ADJS.getD j []) ∧
    (∀ i, i < 20 → ∀ j, j < 20 → Relation.ReflTransGen Adj i j) ∧
    (∀ k, k < 20 → (Maze.mkRooms.getD k default).neighbour_ids = Maze.ADJS.getD k []) := by
  have hreach : ∀ i, i < 20 → ∀ j, j < 20 → j ∈ reachFrom i := by decide
  refine ⟨by decide, by decide, ?_, by decide⟩
  intro i hi j hj
  obtain ⟨i', hi', hrt⟩ := adjStep_sound 6 [i] j (hreach i hi j hj)
  obtain rfl : i' = i := by simpa using hi'
  exact hrt

/-- **C3**: move resolution on a validated neighbour destination, in a
maze satisfying the placement invariants, follows the exact case
analysis: Wumpus there → eaten loss; else Pit there → pit loss; else
Bat there → the player is relocated to a room with no hazard and no
Wumpus and the game continues; else the player's room becomes the
destination and the game continues. -/
theorem move_resolution (m : Maze) (p : Player) (r : Rng) (input : String) (room : Nat)
    (hinv : MazeInv m) (hparse : m.parse_room input p.room = some room) :
    ((m.roomAt room).dangers.contains Danger.Wumpus = true →
      stepMoving m p r input = .terminal .eatenByWumpus m p r) ∧
    ((m.roomAt room).dangers.contains Danger.Wumpus = false →
     (m.roomAt room).dangers.contains Danger.Pit = true →
      stepMoving m p r input = .terminal .fellInPit m p r) ∧
    ((m.roomAt room).dangers.contains Danger.Wumpus = false →
     (m.roomAt room).dangers.contains Danger.Pit = false →
     (m.roomAt room).dangers.contains Danger.Bat = true →
      ∃ newRoom r',
        stepMoving m p r input = .next ⟨m, { p with room := newRoom }, .Normal, r'⟩ ∧
        (m.roomAt newRoom).dangers = []) ∧
    ((m.roomAt room).dangers.contains Danger.Wumpus = false →
     (m.roomAt room).dangers.contains Danger.Pit = false →
     (m.roomAt room).dangers.contains Danger.Bat = false →
      stepMoving m p r input = .next ⟨m, { p with room := room }, .Normal, r⟩) := by
  obtain ⟨hwired, hshape, hW, hP, hB, hE⟩ := hinv
  refine ⟨fun h1 => ?_, fun h1 h2 => ?_, fun h1 h2 h3 => ?_, fun h1 h2 h3 => ?_⟩
  · simp only [stepMoving, hparse]
    rw [if_pos h1]
  · simp only [stepMoving, hparse]
    rw [if_neg (by simp [h1]), if_pos h2]
  · obtain ⟨i, r', heq, hlt, hdang⟩ := rnd_empty_room_pos m r hwired (by omega)
    refine ⟨i, r', ?_, hdang⟩
    simp only [stepMoving, hparse]
    rw [if_neg (by simp [h1]), if_neg (by simp [h2]), if_pos h3]
    simp only [heq]
  · simp only [stepMoving, hparse]
    rw [if_neg (by simp [h1]), if_neg (by simp [h2]), if_neg (by simp [h3])]

/-- **C4**: a validated shoot target holding the Wumpus wins
immediately, for every game state and every pending random draw; the
random source is returned untouched, so no wake draw is consumed on
this path. -/
theorem shoot_wumpus_always_wins (m : Maze) (p : Player) (r : Rng) (input : String)
    (room : Nat) (hparse : m.parse_room input p.room = some room)
    (hW : (m.roomAt room).dangers.contains Danger.Wumpus = true) :
    stepShooting m p r input = .terminal .killedWumpus m p r := by
  simp only [stepShooting, hparse]
  rw [if_pos hW]

/-- **C5** counterexample: in the maze built from `cexRng` (Wumpus in
room 1; rooms 2, 9 hold Pits and 3, 5 hold Bats, so room 0 is the only
empty neighbour of room 1), the player in room 0 with 5 arrows shoots
at the validated non-Wumpus neighbour 4; the wake draw 0 is below 0.75
and the woken Wumpus relocates onto room 0: the game terminates with
the arrow count still 5 — the shot was resolved but no decrement
happened, refuting the claim that every resolved non-Wumpus shot
decrements the count by exactly 1. -/
theorem shoot_nonwumpus_cex :
    cexMaze.parse_room "4" (Player.new 0).room = some 4 ∧
    (cexMaze.roomAt 4).dangers.contains Danger.Wumpus = false ∧
    MazeInv cexMaze ∧
    (Player.new 0).arrows = 5 ∧
    stepShooting cexMaze (Player.new 0) ⟨[0], [0]⟩ "4" =
      .terminal .wokenWumpusAte cexMaze (Player.new 0) ⟨[], []⟩ := by
  exact ⟨by decide, by decide, by decide, by decide, by decide⟩

/-- **C5** (amended): a resolved shot at a validated neighbour not
holding the Wumpus either terminates the game in the woken-Wumpus loss
with the arrow count untouched, or decrements the arrow count by
exactly 1 — terminating in the out-of-arrows loss with 0 arrows when it
was the last arrow (the 5th such shot from the initial 5), and
continuing otherwise. -/
theorem shoot_nonwumpus_decrements (m : Maze) (p : Player) (r : Rng) (input : String)
    (room : Nat) (hinv : MazeInv m) (hparse : m.parse_room input p.room = some room)
    (hW : (m.roomAt room).dangers.contains Danger.Wumpus = false)
    (ha : 1 ≤ p.arrows) :
    (∃ r2, stepShooting m p r input = .terminal .wokenWumpusAte m p r2) ∨
    (∃ m' r2,
      (p.arrows = 1 ∧
        stepShooting m p r input = .terminal .outOfArrows m' { p with arrows := 0 } r2) ∨
      (2 ≤ p.arrows ∧
        stepShooting m p r input = .next ⟨m', { p with arrows := p.arrows - 1 }, .Normal, r2⟩)) := by
  have hW' : ¬((m.roomAt room).dangers.contains Danger.Wumpus = true) := by simp [hW]
  obtain ⟨w, hw, hw20, hwd⟩ := findWumpusRoom_spec m hinv.1 hinv.2.1 hinv.2.2.1
  rcases hfr : r.nextFloat with ⟨f, r1⟩
  by_cases hwake : f < WAKE_WUMPUS_PROB
  · by_cases hemp : m.empty_neighbours w = []
    · have hred : stepShooting m p r input = afterShot m p r1 := by
        simp only [stepShooting, hparse, hfr]
        rw [if_neg hW', if_pos hwake]
        simp only [hw, rnd_empty_neighbour_none m w r1 hemp]
      rcases afterShot_cases m p r1 ha with ⟨h1, he⟩ | ⟨h1, he⟩
      · exact Or.inr ⟨m, r1, Or.inl ⟨h1, by rw [hred, he]⟩⟩
      · exact Or.inr ⟨m, r1, Or.inr ⟨h1, by rw [hred, he]⟩⟩
    · obtain ⟨c, r2, hch, hcm⟩ := rnd_empty_neighbour_some m w r1 hemp
      by_cases hcp : c = p.room
      · refine Or.inl ⟨r2, ?_⟩
        simp only [stepShooting, hparse, hfr]
        rw [if_neg hW', if_pos hwake]
        simp only [hw, hch]
        rw [if_pos hcp]
      · have hred : stepShooting m p r input = afterShot (moveWumpus m w c) p r2 := by
          simp only [stepShooting, hparse, hfr]
          rw [if_neg hW', if_pos hwake]
          simp only [hw, hch]
          rw [if_neg hcp]
        rcases afterShot_cases (moveWumpus m w c) p r2 ha with ⟨h1, he⟩ | ⟨h1, he⟩
        · exact Or.inr ⟨moveWumpus m w c, r2, Or.inl ⟨h1, by rw [hred, he]⟩⟩
        · exact Or.inr ⟨moveWumpus m w c, r2, Or.inr ⟨h1, by rw [hred, he]⟩⟩
  · have hred : stepShooting m p r input = afterShot m p r1 := by
      simp only [stepShooting, hparse, hfr]
      rw [if_neg hW', if_neg hwake]
    rcases afterShot_cases m p r1 ha with ⟨h1, he⟩ | ⟨h1, he⟩
    · exact Or.inr ⟨m, r1, Or.inl ⟨h1, by rw [hred, he]⟩⟩
    · exact Or.inr ⟨m, r1, Or.inr ⟨h1, by rw [hred, he]⟩⟩

/-- **C6**: on a shot that misses the Wumpus, the Wumpus's current room
is located; exactly when the wake draw is below 0.75 a neighbour of it
with no hazard and no Wumpus is picked from the empty-neighbour list;
if that list is empty the Wumpus does not move; if the picked room is
the player's room the game terminates in the woken-Wumpus loss;
otherwise the Wumpus marker moves from the old room to the new one
(followed in every non-terminal case by the arrow-count epilogue
`afterShot`). -/
theorem shoot_miss_wake_resolution (m : Maze) (p : Player) (r : Rng) (input : String)
    (room : Nat) (f : ℚ) (r1 : Rng)
    (hinv : MazeInv m) (hparse : m.parse_room input p.room = some room)
    (hW : (m.roomAt room).dangers.contains Danger.Wumpus = false)
    (hf : r.nextFloat = (f, r1)) :
    ∃ w, findWumpusRoom m = some w ∧ (m.roomAt w).dangers = [Danger.Wumpus] ∧
      (¬ f < WAKE_WUMPUS_PROB → stepShooting m p r input = afterShot m p r1) ∧
      (f < WAKE_WUMPUS_PROB →
        (m.empty_neighbours w = [] → stepShooting m p r input = afterShot m p r1) ∧
        (m.empty_neighbours w ≠ [] →
          ∃ c r2, m.rnd_empty_neighbour w r1 = (some c, r2) ∧
            c ∈ m.empty_neighbours w ∧ (m.roomAt c).dangers = [] ∧
            (c = p.room → stepShooting m p r input = .terminal .wokenWumpusAte m p r2) ∧
            (c ≠ p.room →
              stepShooting m p r input = afterShot (moveWumpus m w c) p r2))) := by
  have hW' : ¬((m.roomAt room).dangers.contains Danger.Wumpus = true) := by simp [hW]
  obtain ⟨w, hw, hw20, hwd⟩ := findWumpusRoom_spec m hinv.1 hinv.2.1 hinv.2.2.1
  refine ⟨w, hw, hwd, fun hwake => ?_, fun hwake => ⟨fun hemp => ?_, fun hemp => ?_⟩⟩
  · simp only [stepShooting, hparse, hf]
    rw [if_neg hW', if_neg hwake]
  · simp only [stepShooting, hparse, hf]
    rw [if_neg hW', if_pos hwake]
    simp only [hw, rnd_empty_neighbour_none m w r1 hemp]
  · obtain ⟨c, r2, hch, hcm⟩ := rnd_empty_neighbour_some m w r1 hemp
    obtain ⟨-, hcd⟩ := mem_empty_neighbours hcm
    refine ⟨c, r2, hch, hcm, hcd, fun hcp => ?_, fun hcp => ?_⟩
    · simp only [stepShooting, hparse, hf]
      rw [if_neg hW', if_pos hwake]
      simp only [hw, hch]
      rw [if_pos hcp]
    · simp only [stepShooting, hparse, hf]
      rw [if_neg hW', if_pos hwake]
      simp only [hw, hch]
      rw [if_neg hcp]

/-- **C7**: destination validation succeeds exactly when the token
parses as a non-negative integer (Rust `usize` grammar) naming one of
the current room's 3 neighbours; in particular the current room itself
is always rejected, since no room lists itself as a neighbour. -/
theorem parse_room_validation (m : Maze) (cur : Nat) (tok : String)
    (hw : RoomsWired m) (hc : cur < 20) :
    (∀ n, m.parse_room tok cur = some n ↔
      (Maze.parseUsize tok = some n ∧ n ∈ m.neighbour_ids cur)) ∧
    m.parse_room tok cur ≠ some cur := by
  refine ⟨fun n => parse_room_iff m tok cur n, fun hself => ?_⟩
  obtain ⟨-, hmem⟩ := (parse_room_iff m tok cur cur).mp hself
  rw [neighbour_ids_wired m hw cur hc] at hmem
  exact adjs_self_not_mem cur hc hmem

/-- **C8**: a move or shoot target that fails parsing or adjacency
validation leaves the controller in the same awaiting state with maze,
player and random source untouched. -/
theorem invalid_target_noop (m : Maze) (p : Player) (r : Rng) (input : String)
    (h : m.parse_room input p.room = none) :
    step ⟨m, p, .Moving, r⟩ input = .next ⟨m, p, .Moving, r⟩ ∧
    step ⟨m, p, .Shooting, r⟩ input = .next ⟨m, p, .Shooting, r⟩ := by
  constructor
  · simp only [step, stepMoving, h]
  · simp only [step, stepShooting, h]

/-- **C9**: in every state reachable from construction by any turns and
draws, each room holds at most one marker (Pit, Bat and Wumpus mutually
exclusive per room) and exactly one room holds the Wumpus marker. -/
theorem reachable_danger_exclusive (s : GameState) (h : Reachable s) :
    (∀ rm ∈ s.maze.rooms, rm.dangers.length ≤ 1) ∧
    s.maze.rooms.countP (fun rm => rm.dangers.contains Danger.Wumpus) = 1 := by
  obtain ⟨hw, hs, hW, hP, hB, hE⟩ := reachable_maze_inv h
  refine ⟨fun rm hrm => ?_, hW⟩
  rcases hs rm hrm with h | h | h | h <;> simp [h]

/-- **C10**: on a missed shot whose wake draw is below 0.75, if the
woken Wumpus's picked destination is the player's room, the game
terminates in the woken-Wumpus loss carrying the unchanged maze (the
Wumpus marker not yet moved) and the unchanged player (the arrow count
not decremented) — so this loss precedes the arrow decrement and the
out-of-arrows check, even on the player's last arrow. -/
theorem woken_wumpus_before_decrement (m : Maze) (p : Player) (r : Rng) (input : String)
    (room w : Nat) (f : ℚ) (r1 r2 : Rng) (c : Nat)
    (hparse : m.parse_room input p.room = some room)
    (hW : (m.roomAt room).dangers.contains Danger.Wumpus = false)
    (hf : r.nextFloat = (f, r1)) (hwake : f < WAKE_WUMPUS_PROB)
    (hw : findWumpusRoom m = some w)
    (hn : m.rnd_empty_neighbour w r1 = (some c, r2)) (hc : c = p.room) :
    stepShooting m p r input = .terminal .wokenWumpusAte m p r2 := by
  have hW' : ¬((m.roomAt room).dangers.contains Danger.Wumpus = true) := by simp [hW]
  simp only [stepShooting, hparse, hf]
  rw [if_neg hW', if_pos hwake]
  simp only [hw, hn]
  rw [if_pos hc]

/-! ## Witnesses: each hypothesis-bearing claim applied at a concrete
input (`exMaze`: Wumpus in 0, Pits in 1 and 2, Bats in 3 and 4;
`cexMaze`: Wumpus in 1, Pits in 2 and 9, Bats in 3 and 5). -/

theorem move_resolution_witness :
    ((exMaze.roomAt 0).dangers.contains Danger.Wumpus = true →
      stepMoving exMaze ⟨7, 5⟩ ⟨[], []⟩ "0" =
        .terminal .eatenByWumpus exMaze ⟨7, 5⟩ ⟨[], []⟩) ∧
    ((exMaze.roomAt 0).dangers.contains Danger.Wumpus = false →
     (exMaze.roomAt 0).dangers.contains Danger.Pit = true →
      stepMoving exMaze ⟨7, 5⟩ ⟨[], []⟩ "0" =
        .terminal .fellInPit exMaze ⟨7, 5⟩ ⟨[], []⟩) ∧
    ((exMaze.roomAt 0).dangers.contains Danger.Wumpus = false →
     (exMaze.roomAt 0).dangers.contains Danger.Pit = false →
     (exMaze.roomAt 0).dangers.contains Danger.Bat = true →
      ∃ newRoom r',
        stepMoving exMaze ⟨7, 5⟩ ⟨[], []⟩ "0" =
          .next ⟨exMaze, ⟨newRoom, 5⟩, .Normal, r'⟩ ∧
        (exMaze.roomAt newRoom).dangers = []) ∧
    ((exMaze.roomAt 0).dangers.contains Danger.Wumpus = false →
     (exMaze.roomAt 0).dangers.contains Danger.Pit = false →
     (exMaze.roomAt 0).dangers.contains Danger.Bat = false →
      stepMoving exMaze ⟨7, 5⟩ ⟨[], []⟩ "0" =
        .next ⟨exMaze, ⟨0, 5⟩, .Normal, ⟨[], []⟩⟩) :=
  move_resolution exMaze ⟨7, 5⟩ ⟨[], []⟩ "0" 0 (by decide) (by decide)

theorem shoot_wumpus_always_wins_witness :
    stepShooting exMaze ⟨7, 5⟩ ⟨[], [mkRat 1 2]⟩ "0" =
      .terminal .killedWumpus exMaze ⟨7, 5⟩ ⟨[], [mkRat 1 2]⟩ :=
  shoot_wumpus_always_wins exMaze ⟨7, 5⟩ ⟨[], [mkRat 1 2]⟩ "0" 0 (by decide) (by decide)

theorem shoot_nonwumpus_decrements_witness :
    (∃ r2, stepShooting cexMaze (Player.new 0) ⟨[0], [0]⟩ "4" =
      .terminal .wokenWumpusAte cexMaze (Player.new 0) r2) ∨
    (∃ m' r2,
      ((Player.new 0).arrows = 1 ∧
        stepShooting cexMaze (Player.new 0) ⟨[0], [0]⟩ "4" =
          .terminal .outOfArrows m' ⟨0, 0⟩ r2) ∨
      (2 ≤ (Player.new 0).arrows ∧
        stepShooting cexMaze (Player.new 0) ⟨[0], [0]⟩ "4" =
          .next ⟨m', ⟨0, (Player.new 0).arrows - 1⟩, .Normal, r2⟩)) :=
  shoot_nonwumpus_decrements cexMaze (Player.new 0) ⟨[0], [0]⟩ "4" 4
    (by decide) (by decide) (by decide) (by decide)

theorem shoot_miss_wake_resolution_witness :
    ∃ w, findWumpusRoom cexMaze = some w ∧
      (cexMaze.roomAt w).dangers = [Danger.Wumpus] ∧
      (¬ (0 : ℚ) < WAKE_WUMPUS_PROB →
        stepShooting cexMaze (Player.new 0) ⟨[0], [0]⟩ "4" =
          afterShot cexMaze (Player.new 0) ⟨[0], []⟩) ∧
      ((0 : ℚ) < WAKE_WUMPUS_PROB →
        (cexMaze.empty_neighbours w = [] →
          stepShooting cexMaze (Player.new 0) ⟨[0], [0]⟩ "4" =
            afterShot cexMaze (Player.new 0) ⟨[0], []⟩) ∧
        (cexMaze.empty_neighbours w ≠ [] →
          ∃ c r2, cexMaze.rnd_empty_neighbour w ⟨[0], []⟩ = (some c, r2) ∧
            c ∈ cexMaze.empty_neighbours w ∧ (cexMaze.roomAt c).dangers = [] ∧
            (c = (Player.new 0).room →
              stepShooting cexMaze (Player.new 0) ⟨[0], [0]⟩ "4" =
                .terminal .wokenWumpusAte cexMaze (Player.new 0) r2) ∧
            (c ≠ (Player.new 0).room →
              stepShooting cexMaze (Player.new 0) ⟨[0], [0]⟩ "4" =
                afterShot (moveWumpus cexMaze w c) (Player.new 0) r2))) :=
  shoot_miss_wake_resolution cexMaze (Player.new 0) ⟨[0], [0]⟩ "4" 4 0 ⟨[0], []⟩
    (by decide) (by decide) (by decide) (by decide)

theorem parse_room_validation_witness :
    (∀ n, exMaze.parse_room "99" 0 = some n ↔
      (Maze.parseUsize "99" = some n ∧ n ∈ exMaze.neighbour_ids 0)) ∧
    exMaze.parse_room "99" 0 ≠ some 0 :=
  parse_room_validation exMaze 0 "99" (by decide) (by decide)

theorem invalid_target_noop_witness :
    step ⟨exMaze, Player.new 5, .Moving, ⟨[], []⟩⟩ "99" =
      .next ⟨exMaze, Player.new 5, .Moving, ⟨[], []⟩⟩ ∧
    step ⟨exMaze, Player.new 5, .Shooting, ⟨[], []⟩⟩ "99" =
      .next ⟨exMaze, Player.new 5, .Shooting, ⟨[], []⟩⟩ :=
  invalid_target_noop exMaze (Player.new 5) ⟨[], []⟩ "99" (by decide)

theorem reachable_danger_exclusive_witness :
    (∀ rm ∈ exMaze.rooms, rm.dangers.length ≤ 1) ∧
    exMaze.rooms.countP (fun rm => rm.dangers.contains Danger.Wumpus) = 1 :=
  reachable_danger_exclusive ⟨exMaze, Player.new 5, .Normal, ⟨[], []⟩⟩
    (Reachable.init exRng exMaze ⟨[0], []⟩ ⟨[], []⟩ 5 (by decide) (by decide))

theorem woken_wumpus_before_decrement_witness :
    (Player.mk 0 1).arrows = 1 ∧
    stepShooting cexMaze (Player.mk 0 1) ⟨[0], [0]⟩ "4" =
      .terminal .wokenWumpusAte cexMaze (Player.mk 0 1) ⟨[], []⟩ :=
  ⟨rfl, woken_wumpus_before_decrement cexMaze (Player.mk 0 1) ⟨[0], [0]⟩ "4" 4 1 0
    ⟨[0], []⟩ ⟨[], []⟩ 0 (by decide) (by decide) (by decide) (by decide) (by decide)
    (by decide) rfl⟩

end Wumpus
